/-
Verification of the Athena query-execution pipeline (src/query.py).

Strings manipulated by the Python code are modelled as `List Char` (`Str`).
Each Lean definition mirrors the corresponding Python function; service
responses (boto3 dicts) are modelled as explicit record structures, and
functions that can raise return `Option`/`Except`.
-/
import Mathlib

set_option maxHeartbeats 1000000

/-- Characters of a Python string. -/
abbrev Str := List Char

/-- Whitespace characters removed by Python's `str.strip()` (ASCII subset). -/
def isPySpace (c : Char) : Bool :=
  c = ' ' || c = '\t' || c = '\n' || c = '\r' || c = '\x0b' || c = '\x0c'

/-- Model of Python `str.lstrip()`. -/
def lstrip (l : Str) : Str := l.dropWhile isPySpace

/-- Model of Python `str.rstrip()`. -/
def rstrip (l : Str) : Str := (l.reverse.dropWhile isPySpace).reverse

/-- Model of Python `str.strip()`. -/
def pstrip (l : Str) : Str := rstrip (lstrip l)

/-- Model of Python `str.upper()` (ASCII subset). -/
def upperChars (l : Str) : Str := l.map Char.toUpper

/-- Model of Python `str.split("\n")`. -/
def splitLines : Str → List Str
  | [] => [[]]
  | c :: cs =>
    if c = '\n' then [] :: splitLines cs
    else match splitLines cs with
      | [] => [[c]]
      | l :: ls => (c :: l) :: ls

/-- Model of Python `line.split("--")[0]`: the text before the first
line-comment marker. -/
def beforeComment : Str → Str
  | [] => []
  | c :: cs =>
    if c = '-' && cs.head? == some '-' then []
    else c :: beforeComment cs

/-- Model of Python `sep.join(parts)`. -/
def joinSep (sep : Str) : List Str → Str
  | [] => []
  | [x] => x
  | x :: y :: ys => x ++ sep ++ joinSep sep (y :: ys)

/-- Model of Python `u in v` (substring test), `inStr u v` = `u in v`. -/
def isPrefOf : Str → Str → Bool
  | [], _ => true
  | _ :: _, [] => false
  | a :: as, b :: bs => a == b && isPrefOf as bs

/-- Substring containment: `inStr needle hay` models Python `needle in hay`. -/
def inStr (needle : Str) : Str → Bool
  | [] => needle.isEmpty
  | c :: rest => isPrefOf needle (c :: rest) || inStr needle rest

/-- Lines kept by `validate_read_only`: each line of the query with the text
after `--` removed and surrounding whitespace stripped, empty lines dropped
(mirrors the loop at src/query.py lines 76-80). -/
def query_lines (q : Str) : List Str :=
  ((splitLines q).map (fun l => pstrip (beforeComment l))).filter (fun l => !l.isEmpty)

/-- The normalized query scanned for keywords: kept lines joined with single
spaces and upper-cased (src/query.py line 81). -/
def normalize_query (q : Str) : Str := upperChars (joinSep [' '] (query_lines q))

/-- The denylist of write-intent keywords, each with its trailing space,
exactly as in src/query.py lines 84-94. -/
def write_keywords : List Str :=
  ["INSERT ".data, "UPDATE ".data, "DELETE ".data, "DROP ".data, "CREATE ".data,
   "ALTER ".data, "TRUNCATE ".data, "MERGE ".data, "UNLOAD ".data]

/-- Model of `validate_read_only` (src/query.py lines 74-98): returns
`some message` when the query is blocked (Python raises `ValueError`),
`none` when the query passes. -/
def validate_read_only (q : Str) : Option Str :=
  (write_keywords.find? (fun kw => inStr kw (normalize_query q))).map
    (fun kw => "Write operation detected: ".data ++ pstrip kw ++
      ". Only SELECT queries allowed.".data)

/-- Identifier start characters of `string.Template`'s default placeholder
pattern (ASCII letters or underscore, case-insensitive). -/
def isIdStart (c : Char) : Bool := c.isAlpha || c = '_'

/-- Identifier continuation characters of the placeholder pattern. -/
def isIdChar (c : Char) : Bool := isIdStart c || c.isDigit

/-- A token of the left-to-right scan performed by
`string.Template.safe_substitute`: a literal character, an escaped `$$`,
a `$name` placeholder, a `${name}` placeholder, or a lone invalid `$`. -/
inductive Tok where
  | lit : Char → Tok
  | escaped : Tok
  | named : Str → Tok
  | braced : Str → Tok
  | invalid : Tok
deriving DecidableEq, Repr

/-- Fuel-indexed scanner mirroring the non-overlapping left-to-right regex
match of `string.Template` (delimiter `$`, default identifier pattern).
The fuel only serves termination; `tokenize` supplies enough. -/
def tokenizeF : Nat → Str → List Tok
  | 0, _ => []
  | _, [] => []
  | fuel + 1, c :: cs =>
    if c = '$' then
      match cs with
      | [] => [Tok.invalid]
      | d :: ds =>
        if d = '$' then Tok.escaped :: tokenizeF fuel ds
        else if d = '{' then
          match ds with
          | [] => Tok.invalid :: tokenizeF fuel cs
          | e :: es =>
            if isIdStart e then
              if (es.dropWhile isIdChar).head? = some '}' then
                Tok.braced (e :: es.takeWhile isIdChar)
                  :: tokenizeF fuel ((es.dropWhile isIdChar).drop 1)
              else Tok.invalid :: tokenizeF fuel cs
            else Tok.invalid :: tokenizeF fuel cs
        else if isIdStart d then
          Tok.named (d :: ds.takeWhile isIdChar) :: tokenizeF fuel (ds.dropWhile isIdChar)
        else Tok.invalid :: tokenizeF fuel cs
    else Tok.lit c :: tokenizeF fuel cs

/-- The token stream of a template. -/
def tokenize (s : Str) : List Tok := tokenizeF s.length s

/-- Dictionary lookup in the parameter mapping. -/
def lookupParam (params : List (Str × Str)) (name : Str) : Option Str :=
  (params.find? (fun kv => kv.1 == name)).map (fun kv => kv.2)

/-- The text a token contributes to the output of `safe_substitute`
(the `convert` function of `string.Template`). -/
def Tok.render (params : List (Str × Str)) : Tok → Str
  | Tok.lit c => [c]
  | Tok.escaped => ['$']
  | Tok.named n =>
    match lookupParam params n with
    | some v => v
    | none => '$' :: n
  | Tok.braced n =>
    match lookupParam params n with
    | some v => v
    | none => '$' :: '{' :: (n ++ ['}'])
  | Tok.invalid => ['$']

/-- The template text a token was scanned from. -/
def Tok.source : Tok → Str
  | Tok.lit c => [c]
  | Tok.escaped => ['$', '$']
  | Tok.named n => '$' :: n
  | Tok.braced n => '$' :: '{' :: (n ++ ['}'])
  | Tok.invalid => ['$']

/-- The placeholder name carried by a token, when it has one. -/
def Tok.placeholderName : Tok → Option Str
  | Tok.named n => some n
  | Tok.braced n => some n
  | _ => none

/-- Model of `substitute_params` (src/query.py lines 101-103), i.e. of
`Template(query).safe_substitute(params)`: each regex match is converted
by `Tok.render` and the results are concatenated. -/
def substitute_params (q : Str) (params : List (Str × Str)) : Str :=
  ((tokenize q).map (Tok.render params)).flatten

/-- The record `response["QueryExecution"]` of `get_query_execution`,
flattened: nested dict keys become fields, optional keys become `Option`. -/
structure QueryExecution where
  queryExecutionId : Str
  status_State : Str
  status_StateChangeReason : Option Str
  statistics_DataScannedInBytes : Option Nat
  statistics_TotalExecutionTimeInMillis : Option Nat
deriving DecidableEq, Repr

/-- Loop of `wait_for_query` (src/query.py lines 117-130) over the sequence
of service responses, instrumented with the number of `get_query_execution`
calls and `time.sleep` calls made so far.  `none` models a response
sequence that never reaches a terminal state. -/
def waitAux : List QueryExecution → Nat → Nat →
    Option (Except Str QueryExecution × Nat × Nat)
  | [], _, _ => none
  | r :: rest, calls, sleeps =>
    if r.status_State = "SUCCEEDED".data then
      some (Except.ok r, calls + 1, sleeps)
    else if r.status_State = "FAILED".data ∨ r.status_State = "CANCELLED".data then
      some (Except.error ("Query ".data ++ r.status_State ++ ": ".data ++
        (r.status_StateChangeReason.getD "Unknown".data)), calls + 1, sleeps)
    else waitAux rest (calls + 1) (sleeps + 1)

/-- Model of `wait_for_query`: polls through the given response sequence,
returning the result together with the total status-call and sleep counts. -/
def wait_for_query (responses : List QueryExecution) :
    Option (Except Str QueryExecution × Nat × Nat) :=
  waitAux responses 0 0

/-- One page of `get_query_results`: column labels from the result-set
metadata, rows (each cell an optional `VarCharValue`), and the optional
`NextToken`. -/
structure Page where
  columnLabels : List Str
  rows : List (List (Option Str))
  nextToken : Option Str
deriving DecidableEq, Repr

/-- Conversion of one service row into table cells:
`[col.get("VarCharValue", "") for col in row["Data"]]` (src/query.py l.158). -/
def collectRow (row : List (Option Str)) : List Str :=
  row.map (fun c => c.getD [])

/-- Pagination loop of `fetch_results` (src/query.py lines 140-162) over the
sequence of pages the service returns: on the first page the column labels
are captured and the leading duplicated header row dropped; rows are
accumulated; the loop continues exactly while a `NextToken` is present. -/
def fetchAux : List Page → List Str → List (List Str) → Bool →
    List Str × List (List Str)
  | [], cols, acc, _ => (cols, acc)
  | p :: ps, cols, acc, first =>
    let cols' := if first then p.columnLabels else cols
    let dataRows := if first then p.rows.drop 1 else p.rows
    let acc' := acc ++ dataRows.map collectRow
    match p.nextToken with
    | none => (cols', acc')
    | some _ => fetchAux ps cols' acc' false

/-- Model of `fetch_results` (src/query.py lines 133-164). -/
def fetch_results (pages : List Page) : List Str × List (List Str) :=
  fetchAux pages [] [] true

/-- Decimal digits of a natural number. -/
def natStr (n : Nat) : Str := (Nat.repr n).data

/-- Rounding of `num / den` to the nearest integer, ties to even
(the rounding used by Python's `format`). -/
def roundHalfEven (num den : Nat) : Nat :=
  let q := num / den
  let r := num % den
  if 2 * r < den then q
  else if den < 2 * r then q + 1
  else if q % 2 = 0 then q else q + 1

/-- Model of the f-string field `{bytes / 1024 / 1024:.2f}` (src/query.py
line 175), with the float division and rounding modelled as exact rational
rounding to hundredths. -/
def formatMB (bytes : Nat) : Str :=
  let h := roundHalfEven (bytes * 100) 1048576
  natStr (h / 100) ++ ['.'] ++ (if h % 100 < 10 then '0' :: natStr (h % 100) else natStr (h % 100))

/-- Model of Python `str.ljust(w)`. -/
def ljust (s : Str) (w : Nat) : Str := s ++ List.replicate (w - s.length) ' '

/-- One pass of the width loop of `format_results` (src/query.py lines
194-196) for a single row: `widths[i] = max(widths[i], len(val))` for each
cell; `none` models the `IndexError` raised when the row is longer than the
width list. -/
def updateWidths : List Nat → List Str → Option (List Nat)
  | ws, [] => some ws
  | [], _ :: _ => none
  | w :: ws, v :: vs => (updateWidths ws vs).map (fun l => max w v.length :: l)

/-- Column widths computed by `format_results` (src/query.py lines 192-199):
label lengths, raised by every cell length, then capped at 200. -/
def computeWidths (columns : List Str) (rows : List (List Str)) : Option (List Nat) :=
  (rows.foldlM updateWidths (columns.map List.length)).map
    (fun ws => ws.map (fun w => min w 200))

/-- The padded header fields `col.ljust(widths[i])` (src/query.py line 202). -/
def headerFields (columns : List Str) (ws : List Nat) : List Str :=
  List.zipWith (fun col w => ljust col w) columns ws

/-- The padded, truncated fields of one data row,
`str(val)[:widths[i]].ljust(widths[i])` (src/query.py line 208). -/
def rowFields (row : List Str) (ws : List Nat) : List Str :=
  List.zipWith (fun v w => ljust (v.take w) w) row ws

/-- The table block of `format_results` (src/query.py lines 192-209): header
line, dash separator of the header's length, then the rendered rows. -/
def format_table (columns : List Str) (rows : List (List Str)) : Option (List Str) :=
  (computeWidths columns rows).map (fun ws =>
    let header := joinSep " | ".data (headerFields columns ws)
    header :: List.replicate header.length '-' ::
      rows.map (fun row => joinSep " | ".data (rowFields row ws)))

/-- The fixed leading lines of `format_results` (src/query.py lines 169-186).
The wall-clock reading `datetime.now().isoformat()` and the module global
`DATABASE` are modelled as the explicit inputs `now` and `database`. -/
def headerBlock (rowCount : Nat) (query : Str) (info : QueryExecution)
    (now database : Str) : List Str :=
  ["Athena Query Results".data,
   List.replicate 70 '=',
   "Timestamp: ".data ++ now,
   "Database: ".data ++ database,
   "Execution ID: ".data ++ info.queryExecutionId,
   "Data scanned: ".data ++ formatMB (info.statistics_DataScannedInBytes.getD 0) ++ " MB".data,
   "Execution time: ".data ++ natStr (info.statistics_TotalExecutionTimeInMillis.getD 0) ++ "ms".data,
   List.replicate 70 '=',
   [],
   "Query:".data,
   List.replicate 40 '-',
   pstrip query,
   List.replicate 40 '-',
   [],
   "Results (".data ++ natStr rowCount ++ " rows):".data,
   []]

/-- The lines of the report produced by `format_results` (src/query.py lines
167-211); `none` models the `IndexError` on a row longer than the columns. -/
def formatResultsLines (columns : List Str) (rows : List (List Str)) (query : Str)
    (info : QueryExecution) (now database : Str) : Option (List Str) :=
  if rows.isEmpty then
    some (headerBlock rows.length query info now database ++ ["(no results)".data])
  else
    (format_table columns rows).map
      (fun t => headerBlock rows.length query info now database ++ t)

/-- Model of `format_results`: the report text, lines joined by newlines. -/
def format_results (columns : List Str) (rows : List (List Str)) (query : Str)
    (info : QueryExecution) (now database : Str) : Option Str :=
  (formatResultsLines columns rows query info now database).map (joinSep ['\n'])

/-- Occurrence of `u` as a contiguous segment of `v` (Python's `u in v`,
in propositional form). -/
def Seg (u v : Str) : Prop := ∃ s t, v = s ++ u ++ t

/-- The effect of one row on the width list, in explicit form (used to
reason about the width loop). -/
def stepWidths (ws : List Nat) (row : List Str) : List Nat :=
  List.zipWith (fun w v => max w v.length) ws row ++ ws.drop row.length

/-- A RUNNING status response. -/
def exRun : QueryExecution := ⟨"qid-1".data, "RUNNING".data, none, none, none⟩

/-- A SUCCEEDED status response with execution statistics. -/
def exSucc : QueryExecution :=
  ⟨"qid-1".data, "SUCCEEDED".data, none, some 5242880, some 1234⟩

/-- A FAILED status response with a reason. -/
def exFail : QueryExecution := ⟨"qid-1".data, "FAILED".data, some "boom".data, none, none⟩

/-- A first result page: metadata labels, a duplicated header row followed by
one data row, and a continuation token. -/
def exPage1 : Page :=
  ⟨["c1".data, "c2".data],
   [[some "c1".data, some "c2".data], [some "a".data, none]],
   some "T".data⟩

/-- A final result page: one data row, no continuation token. -/
def exPage2 : Page := ⟨[], [[some "b".data, some [] ]], none⟩

/-- A single final page whose data row has a cell with no `VarCharValue`. -/
def exPage3 : Page :=
  ⟨["c".data, "d".data],
   [[some "c".data, some "d".data], [none, some "v".data]],
   none⟩

/-- A column label longer than the 200-character width cap. -/
def longLabel : Str := List.replicate 201 'x'

/-! Helper lemmas about substring occurrence. -/

theorem isPrefOf_iff (u : Str) : ∀ v : Str, isPrefOf u v = true ↔ ∃ t, v = u ++ t := by
  induction u with
  | nil => intro v; simp [isPrefOf]
  | cons a as ih =>
    intro v
    cases v with
    | nil => simp [isPrefOf]
    | cons b bs =>
      simp only [isPrefOf, Bool.and_eq_true, beq_iff_eq, ih]
      constructor
      · rintro ⟨rfl, t, rfl⟩; exact ⟨t, rfl⟩
      · rintro ⟨t, h⟩
        cases h
        exact ⟨rfl, t, rfl⟩

theorem inStr_iff (u : Str) : ∀ v : Str, inStr u v = true ↔ Seg u v := by
  intro v
  induction v with
  | nil =>
    simp only [inStr, Seg, List.isEmpty_iff]
    constructor
    · rintro rfl; exact ⟨[], [], rfl⟩
    · rintro ⟨s, t, h⟩
      rcases List.append_eq_nil.1 h.symm with ⟨h1, h2⟩
      exact (List.append_eq_nil.1 h1).2
  | cons c rest ih =>
    simp only [inStr, Bool.or_eq_true, isPrefOf_iff, ih, Seg]
    constructor
    · rintro (⟨t, h⟩ | ⟨s, t, h⟩)
      · exact ⟨[], t, by simpa using h⟩
      · exact ⟨c :: s, t, by simp [h]⟩
    · rintro ⟨s, t, h⟩
      cases s with
      | nil => exact Or.inl ⟨t, by simpa using h⟩
      | cons y s =>
        right
        obtain ⟨rfl, h2⟩ : y = c ∧ rest = s ++ u ++ t := by
          have := h
          simp only [List.cons_append] at this
          exact ⟨(List.cons.injEq _ _ _ _ ▸ this).1.symm, ((List.cons.injEq _ _ _ _ ▸ this).2).symm ▸ rfl⟩
        exact ⟨s, t, h2⟩

theorem seg_refl (u : Str) : Seg u u := ⟨[], [], by simp⟩

theorem seg_trans {u v w : Str} (h1 : Seg u v) (h2 : Seg v w) : Seg u w := by
  obtain ⟨s1, t1, rfl⟩ := h1
  obtain ⟨s2, t2, rfl⟩ := h2
  exact ⟨s2 ++ s1, t1 ++ t2, by simp⟩

theorem seg_of_pref {u v : Str} (h : ∃ t, v = u ++ t) : Seg u v := by
  obtain ⟨t, rfl⟩ := h; exact ⟨[], t, by simp⟩

theorem seg_map (f : Char → Char) {u v : Str} (h : Seg u v) :
    Seg (u.map f) (v.map f) := by
  obtain ⟨s, t, rfl⟩ := h
  exact ⟨s.map f, t.map f, by simp⟩

theorem pref_avoid {u : Str} {c : Char} (hc : c ∉ u) :
    ∀ {a b t : Str}, a ++ c :: b = u ++ t → ∃ t2, a = u ++ t2 := by
  intro a
  induction a generalizing u with
  | nil =>
    intro b t h
    cases u with
    | nil => exact ⟨[], rfl⟩
    | cons x u2 =>
      simp only [List.nil_append, List.cons_append, List.cons.injEq] at h
      exact absurd (h.1 ▸ List.mem_cons_self x u2) hc
  | cons d a2 ih =>
    intro b t h
    cases u with
    | nil => exact ⟨d :: a2, rfl⟩
    | cons x u2 =>
      simp only [List.cons_append, List.cons.injEq] at h
      obtain ⟨rfl, h2⟩ := h
      have hc2 : c ∉ u2 := fun hm => hc (List.mem_cons_of_mem _ hm)
      obtain ⟨t2, rfl⟩ := ih (u := u2) hc2 h2
      exact ⟨t2, by simp⟩

theorem seg_split {u : Str} {c : Char} (hc : c ∉ u) :
    ∀ {a b : Str}, Seg u (a ++ c :: b) → Seg u a ∨ Seg u b := by
  intro a
  induction a generalizing u with
  | nil =>
    rintro b ⟨s, t, h⟩
    simp only [List.nil_append] at h
    cases s with
    | nil =>
      cases u with
      | nil => exact Or.inl ⟨[], [], rfl⟩
      | cons x u2 =>
        simp only [List.nil_append, List.cons_append, List.cons.injEq] at h
        exact absurd (h.1 ▸ List.mem_cons_self x u2) hc
    | cons y s2 =>
      simp only [List.cons_append, List.cons.injEq] at h
      exact Or.inr ⟨s2, t, h.2⟩
  | cons d a2 ih =>
    rintro b ⟨s, t, h⟩
    cases s with
    | nil =>
      cases u with
      | nil => exact Or.inl ⟨[], d :: a2, rfl⟩
      | cons x u2 =>
        simp only [List.nil_append, List.cons_append, List.cons.injEq] at h
        obtain ⟨rfl, h2⟩ := h
        have hc2 : c ∉ u2 := fun hm => hc (List.mem_cons_of_mem _ hm)
        obtain ⟨t2, rfl⟩ := pref_avoid hc2 h2
        exact Or.inl ⟨[], t2, by simp⟩
    | cons y s2 =>
      simp only [List.cons_append, List.cons.injEq] at h
      obtain ⟨rfl, h2⟩ := h
      rcases ih hc ⟨s2, t, h2⟩ with hl | hr
      · obtain ⟨s3, t3, rfl⟩ := hl
        exact Or.inl ⟨d :: s3, t3, by simp⟩
      · exact Or.inr hr

theorem seg_joinSep {u : Str} {c : Char} (hne : u ≠ []) (hc : c ∉ u) :
    ∀ {ps : List Str}, Seg u (joinSep [c] ps) → ∃ p ∈ ps, Seg u p := by
  intro ps
  induction ps with
  | nil =>
    rintro ⟨s, t, h⟩
    simp only [joinSep] at h
    rcases List.append_eq_nil.1 h.symm with ⟨h1, _⟩
    exact absurd (List.append_eq_nil.1 h1).2 hne
  | cons x ps ih =>
    intro h
    cases ps with
    | nil => exact ⟨x, by simp, by simpa [joinSep] using h⟩
    | cons y ys =>
      have hj : joinSep [c] (x :: y :: ys) = x ++ c :: joinSep [c] (y :: ys) := by
        simp [joinSep]
      rw [hj] at h
      rcases seg_split hc h with hl | hr
      · exact ⟨x, by simp, hl⟩
      · obtain ⟨p, hp, hseg⟩ := ih hr
        exact ⟨p, by simp [hp], hseg⟩

theorem mem_joinSep_seg {sep : Str} : ∀ {ps : List Str} {p : Str}, p ∈ ps →
    Seg p (joinSep sep ps) := by
  intro ps
  induction ps with
  | nil => intro p h; simp at h
  | cons x ps ih =>
    intro p hp
    cases ps with
    | nil =>
      simp only [List.mem_singleton] at hp
      subst hp
      simpa [joinSep] using seg_refl p
    | cons y ys =>
      rcases List.mem_cons.1 hp with rfl | hm
      · exact ⟨[], sep ++ joinSep sep (y :: ys), by simp [joinSep]⟩
      · obtain ⟨s, t, hst⟩ := ih hm
        exact ⟨x ++ sep ++ s, t, by simp [joinSep, hst]⟩

/-! Helper lemmas relating the normalization steps to the original query. -/

theorem splitLines_ne_nil (q : Str) : splitLines q ≠ [] := by
  cases q with
  | nil => simp [splitLines]
  | cons c cs =>
    simp only [splitLines]
    split
    · simp
    · split <;> simp

theorem joinSep_splitLines (q : Str) : joinSep ['\n'] (splitLines q) = q := by
  induction q with
  | nil => simp [splitLines, joinSep]
  | cons c cs ih =>
    simp only [splitLines]
    by_cases hc : c = '\n'
    · subst hc
      simp only [if_pos rfl]
      obtain ⟨l, ls, hls⟩ : ∃ l ls, splitLines cs = l :: ls := by
        cases h : splitLines cs with
        | nil => exact absurd h (splitLines_ne_nil cs)
        | cons l ls => exact ⟨l, ls, rfl⟩
      rw [hls] at ih ⊢
      simpa [joinSep] using ih
    · simp only [if_neg hc]
      obtain ⟨l, ls, hls⟩ : ∃ l ls, splitLines cs = l :: ls := by
        cases h : splitLines cs with
        | nil => exact absurd h (splitLines_ne_nil cs)
        | cons l ls => exact ⟨l, ls, rfl⟩
      rw [hls] at ih ⊢
      cases ls with
      | nil => simpa [joinSep] using congrArg (c :: ·) ih
      | cons m ms =>
        simp only [joinSep] at ih ⊢
        rw [← ih]
        simp

theorem mem_splitLines_seg {l q : Str} (h : l ∈ splitLines q) : Seg l q := by
  rw [← joinSep_splitLines q]
  exact mem_joinSep_seg h

theorem beforeComment_pref (l : Str) : ∃ t, l = beforeComment l ++ t := by
  induction l with
  | nil => exact ⟨[], rfl⟩
  | cons c cs ih =>
    simp only [beforeComment]
    split
    · exact ⟨c :: cs, rfl⟩
    · obtain ⟨t, ht⟩ := ih
      exact ⟨t, by simpa using congrArg (c :: ·) ht⟩

theorem lstrip_seg (l : Str) : ∃ s, l = s ++ lstrip l :=
  ⟨l.takeWhile isPySpace, (List.takeWhile_append_dropWhile isPySpace l).symm⟩

theorem rstrip_pref (l : Str) : ∃ t, l = rstrip l ++ t := by
  refine ⟨(l.reverse.takeWhile isPySpace).reverse, ?_⟩
  rw [rstrip, ← List.reverse_append]
  rw [List.takeWhile_append_dropWhile (p := isPySpace)]
  simp

theorem pstrip_seg (l : Str) : Seg (pstrip l) l := by
  obtain ⟨s, hs⟩ := lstrip_seg l
  obtain ⟨t, ht⟩ := rstrip_pref (lstrip l)
  refine ⟨s, t, ?_⟩
  conv_lhs => rw [hs, ht]
  simp [pstrip, List.append_assoc]

theorem dropLast_pref : ∀ l : Str, ∃ t, l = l.dropLast ++ t
  | [] => ⟨[], rfl⟩
  | [a] => ⟨[a], by simp⟩
  | a :: b :: l => by
    obtain ⟨t, ht⟩ := dropLast_pref (b :: l)
    exact ⟨t, by rw [List.dropLast_cons₂, List.cons_append, ← ht]⟩

theorem upperChars_joinSep : ∀ ps : List Str,
    upperChars (joinSep [' '] ps) = joinSep [' '] (ps.map upperChars)
  | [] => by simp [joinSep, upperChars]
  | [x] => by simp [joinSep]
  | x :: y :: ys => by
    have ih := upperChars_joinSep (y :: ys)
    simp only [joinSep, List.map_cons, upperChars, List.map_append] at ih ⊢
    rw [ih]
    rfl

theorem write_keywords_facts : ∀ kw ∈ write_keywords,
    kw.dropLast ≠ [] ∧ ' ' ∉ kw.dropLast := by decide

/-- Core safety lemma: if no keyword (without its trailing space) occurs in
the upper-cased form of any kept line fragment, the validator passes. -/
theorem validate_read_only_eq_none (q : Str)
    (h : ∀ kw ∈ write_keywords, ∀ frag ∈ query_lines q,
      ¬ Seg kw.dropLast (upperChars frag)) :
    validate_read_only q = none := by
  rw [validate_read_only, Option.map_eq_none', List.find?_eq_none]
  intro kw hkw
  simp only [Bool.not_eq_true]
  rw [← Bool.not_eq_true]
  intro hin
  have hseg : Seg kw (normalize_query q) := (inStr_iff _ _).1 hin
  obtain ⟨t, ht⟩ := dropLast_pref kw
  have h1 : Seg kw.dropLast (normalize_query q) :=
    seg_trans ⟨[], t, by simpa using ht⟩ hseg
  rw [normalize_query, upperChars_joinSep] at h1
  obtain ⟨hne, hnsp⟩ := write_keywords_facts kw hkw
  obtain ⟨fr, hfr, hfseg⟩ := seg_joinSep hne hnsp h1
  obtain ⟨frag, hfrag, rfl⟩ := List.mem_map.1 hfr
  exact h kw hkw frag hfrag hfseg

/-- Membership in `query_lines` comes from a line of the query. -/
theorem mem_query_lines {frag q : Str} (h : frag ∈ query_lines q) :
    ∃ line ∈ splitLines q, frag = pstrip (beforeComment line) := by
  rw [query_lines, List.mem_filter] at h
  obtain ⟨line, hline, rfl⟩ := List.mem_map.1 h.1
  exact ⟨line, hline, rfl⟩

/-- Every kept line fragment occurs inside the original query. -/
theorem query_lines_seg {frag q : Str} (h : frag ∈ query_lines q) : Seg frag q := by
  obtain ⟨line, hline, rfl⟩ := mem_query_lines h
  obtain ⟨t, ht⟩ := beforeComment_pref line
  exact seg_trans (seg_trans (pstrip_seg _) (seg_of_pref ⟨t, ht⟩))
    (mem_splitLines_seg hline)

/-- The claim as stated is false on the code: the query consisting of the
single word `DROP` contains the denylisted keyword `DROP`, yet
`validate_read_only` passes it, because the scan looks for each keyword
followed by a space. -/
theorem claim1_counterexample :
    ("DROP ".data ∈ write_keywords)
    ∧ inStr ("DROP".data) (upperChars ("DROP".data)) = true
    ∧ validate_read_only ("DROP".data) = none := by decide

/-- Amended claim C1: a query whose normalized form (comments stripped,
trimmed non-empty lines joined by single spaces, upper-cased) contains a
denylisted keyword together with its trailing space is rejected by
`validate_read_only`; and a query that contains no denylisted keyword at all
(in any letter case) is accepted. -/
theorem claim1_amended :
    (∀ q kw, kw ∈ write_keywords → inStr kw (normalize_query q) = true →
      (validate_read_only q).isSome = true)
    ∧ (∀ q : Str, (∀ kw ∈ write_keywords, inStr kw.dropLast (upperChars q) = false) →
      validate_read_only q = none) := by
  constructor
  · intro q kw hkw hin
    rw [validate_read_only, Option.isSome_map', List.find?_isSome]
    exact ⟨kw, hkw, hin⟩
  · intro q h
    apply validate_read_only_eq_none
    intro kw hkw frag hfrag hseg
    have h2 : Seg (upperChars frag) (upperChars q) := seg_map _ (query_lines_seg hfrag)
    have h3 : Seg kw.dropLast (upperChars q) := seg_trans hseg h2
    have h4 := (inStr_iff (kw.dropLast) (upperChars q)).2 h3
    rw [h kw hkw] at h4
    exact Bool.false_ne_true h4

/-- Witness for the amended claim C1: a lower-case `insert into t` is
blocked, and a pure read query containing no keyword passes. -/
theorem claim1_witness :
    (validate_read_only ("insert into t".data)).isSome = true
    ∧ validate_read_only ("select max(x) from t where dt = '2026-01-15'".data) = none :=
  ⟨claim1_amended.1 ("insert into t".data) ("INSERT ".data) (by decide) (by decide),
   claim1_amended.2 ("select max(x) from t where dt = '2026-01-15'".data) (by decide)⟩

/-- Claim C7: if every denylisted keyword occurrence in the query lies after
the `--` line-comment marker of its line — formalized as: no keyword occurs
(case-insensitively) in the part of any line before its first `--` — then
`validate_read_only` accepts the query. -/
theorem claim7_comments (q : Str)
    (h : ∀ line ∈ splitLines q, ∀ kw ∈ write_keywords,
      inStr kw.dropLast (upperChars (beforeComment line)) = false) :
    validate_read_only q = none := by
  apply validate_read_only_eq_none
  intro kw hkw frag hfrag hseg
  obtain ⟨line, hline, rfl⟩ := mem_query_lines hfrag
  have h2 : Seg (upperChars (pstrip (beforeComment line)))
      (upperChars (beforeComment line)) := seg_map _ (pstrip_seg _)
  have h3 := (inStr_iff (kw.dropLast) (upperChars (beforeComment line))).2
    (seg_trans hseg h2)
  rw [h line hline kw hkw] at h3
  exact Bool.false_ne_true h3

/-- Witness for claim C7: keywords appearing only inside line comments do
not trigger the validator. -/
theorem claim7_witness :
    validate_read_only ("SELECT 1 -- DROP TABLE t\n-- INSERT x\nFROM t".data) = none :=
  claim7_comments ("SELECT 1 -- DROP TABLE t\n-- INSERT x\nFROM t".data) (by decide)

/-! Polling state machine. -/

/-- Running the waiter past a block of non-terminal responses only advances
the call and sleep counters. -/
theorem waitAux_append (pre : List QueryExecution) :
    ∀ (l : List QueryExecution) (c s : Nat),
    (∀ x ∈ pre, x.status_State ≠ "SUCCEEDED".data ∧ x.status_State ≠ "FAILED".data
      ∧ x.status_State ≠ "CANCELLED".data) →
    waitAux (pre ++ l) c s = waitAux l (c + pre.length) (s + pre.length) := by
  induction pre with
  | nil => intro l c s _; simp
  | cons r pre ih =>
    intro l c s h
    obtain ⟨h1, h2, h3⟩ := h r (List.mem_cons_self r pre)
    have hterm : ¬(r.status_State = "FAILED".data ∨ r.status_State = "CANCELLED".data) := by
      rintro (hf | hc2)
      · exact h2 hf
      · exact h3 hc2
    simp only [List.cons_append, waitAux, if_neg h1, if_neg hterm]
    have hrec := ih l (c + 1) (s + 1) (fun x hx => h x (List.mem_cons_of_mem r hx))
    have e1 : c + (r :: pre).length = c + 1 + pre.length := by
      simp [List.length_cons]; omega
    have e2 : s + (r :: pre).length = s + 1 + pre.length := by
      simp [List.length_cons]; omega
    rw [e1, e2]
    exact hrec

/-- Claim C5: after any block of non-terminal observations, the waiter has
made one status call per observation and one sleep per non-terminal
observation; the first terminal observation ends the loop, returning the
full SUCCEEDED record or raising on FAILED/CANCELLED. -/
theorem claim5_polling (pre rest : List QueryExecution) (r : QueryExecution)
    (hpre : ∀ x ∈ pre, x.status_State ≠ "SUCCEEDED".data
      ∧ x.status_State ≠ "FAILED".data ∧ x.status_State ≠ "CANCELLED".data) :
    (r.status_State = "SUCCEEDED".data →
      wait_for_query (pre ++ r :: rest) = some (Except.ok r, pre.length + 1, pre.length))
    ∧ ((r.status_State = "FAILED".data ∨ r.status_State = "CANCELLED".data) →
      ∃ e, wait_for_query (pre ++ r :: rest)
        = some (Except.error e, pre.length + 1, pre.length)) := by
  rw [wait_for_query, waitAux_append pre (r :: rest) 0 0 hpre]
  constructor
  · intro hs
    simp [waitAux, hs]
  · intro hterm
    have hns : r.status_State ≠ "SUCCEEDED".data := by
      rcases hterm with hf | hc
      · rw [hf]; decide
      · rw [hc]; decide
    refine ⟨"Query ".data ++ r.status_State ++ ": ".data
      ++ (r.status_StateChangeReason.getD ("Unknown".data)), ?_⟩
    simp [waitAux, if_neg hns, if_pos hterm]

/-- Witness for claim C5: the status sequence RUNNING, RUNNING, SUCCEEDED
produces exactly 3 status calls and 2 sleeps and returns the SUCCEEDED
record. -/
theorem claim5_witness :
    wait_for_query [exRun, exRun, exSucc] = some (Except.ok exSucc, 3, 2) := by
  have h := (claim5_polling [exRun, exRun] [] exSucc (by decide)).1 (by decide)
  simpa using h

/-- Claim C6: when the first terminal observation is FAILED or CANCELLED,
the waiter raises a query-execution error whose message carries exactly the
service-reported reason, or "Unknown" when none is given; it never returns
normally. -/
theorem claim6_failure (pre rest : List QueryExecution) (r : QueryExecution)
    (hpre : ∀ x ∈ pre, x.status_State ≠ "SUCCEEDED".data
      ∧ x.status_State ≠ "FAILED".data ∧ x.status_State ≠ "CANCELLED".data)
    (hterm : r.status_State = "FAILED".data ∨ r.status_State = "CANCELLED".data) :
    wait_for_query (pre ++ r :: rest)
      = some (Except.error ("Query ".data ++ r.status_State ++ ": ".data
          ++ (r.status_StateChangeReason.getD ("Unknown".data))),
          pre.length + 1, pre.length)
    ∧ ∀ (rec : QueryExecution) (n m : Nat),
        wait_for_query (pre ++ r :: rest) ≠ some (Except.ok rec, n, m) := by
  have hns : r.status_State ≠ "SUCCEEDED".data := by
    rcases hterm with hf | hc
    · rw [hf]; decide
    · rw [hc]; decide
  have hmain : wait_for_query (pre ++ r :: rest)
      = some (Except.error ("Query ".data ++ r.status_State ++ ": ".data
          ++ (r.status_StateChangeReason.getD ("Unknown".data))),
          pre.length + 1, pre.length) := by
    rw [wait_for_query, waitAux_append pre (r :: rest) 0 0 hpre]
    simp [waitAux, if_neg hns, if_pos hterm]
  refine ⟨hmain, ?_⟩
  intro rec n m hok
  rw [hmain] at hok
  simp at hok

/-- Witness for claim C6: a FAILED response with a reason produces the error
message carrying exactly that reason. -/
theorem claim6_witness :
    wait_for_query [exRun, exFail]
      = some (Except.error ("Query FAILED: boom".data), 2, 1) := by
  have h := (claim6_failure [exRun] [] exFail (by decide) (by decide)).1
  exact h.trans (by rfl)

/-! Pagination loop. -/

/-- One loop iteration when the page carries a continuation token. -/
theorem fetchAux_cons_some (p : Page) (ps : List Page) (cols : List Str)
    (acc : List (List Str)) (first : Bool) (tk : Str) (htk : p.nextToken = some tk) :
    fetchAux (p :: ps) cols acc first
      = fetchAux ps (if first then p.columnLabels else cols)
          (acc ++ (if first then p.rows.drop 1 else p.rows).map collectRow) false := by
  rw [show fetchAux (p :: ps) cols acc first = (match p.nextToken with
    | none => ((if first then p.columnLabels else cols),
        acc ++ (if first then p.rows.drop 1 else p.rows).map collectRow)
    | some _ => fetchAux ps (if first then p.columnLabels else cols)
        (acc ++ (if first then p.rows.drop 1 else p.rows).map collectRow) false)
    from rfl, htk]

/-- One loop iteration when the page carries no continuation token: the loop
stops. -/
theorem fetchAux_cons_none (p : Page) (ps : List Page) (cols : List Str)
    (acc : List (List Str)) (first : Bool) (htk : p.nextToken = none) :
    fetchAux (p :: ps) cols acc first
      = ((if first then p.columnLabels else cols),
          acc ++ (if first then p.rows.drop 1 else p.rows).map collectRow) := by
  rw [show fetchAux (p :: ps) cols acc first = (match p.nextToken with
    | none => ((if first then p.columnLabels else cols),
        acc ++ (if first then p.rows.drop 1 else p.rows).map collectRow)
    | some _ => fetchAux ps (if first then p.columnLabels else cols)
        (acc ++ (if first then p.rows.drop 1 else p.rows).map collectRow) false)
    from rfl, htk]

/-- After the first page, the loop appends every page's rows as long as the
continuation-token discipline holds: every page but the last carries a
token, the last does not. -/
theorem fetchAux_rest : ∀ (ps : List Page) (cols : List Str) (acc : List (List Str)),
    (∀ p ∈ ps.dropLast, p.nextToken.isSome = true) →
    (∀ h : ps ≠ [], (ps.getLast h).nextToken = none) →
    fetchAux ps cols acc false
      = (cols, acc ++ ((ps.map Page.rows).flatten).map collectRow) := by
  intro ps
  induction ps with
  | nil => intro cols acc _ _; simp [fetchAux]
  | cons p ps ih =>
    intro cols acc htok hlast
    cases ps with
    | nil =>
      have hp : p.nextToken = none := hlast (by simp)
      rw [fetchAux_cons_none p [] cols acc false hp]
      simp
    | cons q qs =>
      have hp : p.nextToken.isSome = true := htok p (by simp [List.dropLast])
      obtain ⟨tk, htk⟩ := Option.isSome_iff_exists.1 hp
      rw [fetchAux_cons_some p (q :: qs) cols acc false tk htk]
      simp only [Bool.false_eq_true, if_false]
      rw [ih cols (acc ++ p.rows.map collectRow)
        (fun x hx => htok x (by simp [List.dropLast, hx]))
        (fun h => by
          have h2 := hlast (by simp)
          rwa [List.getLast_cons h] at h2)]
      simp [List.map_append]

/-- Claim C2: over a page sequence obeying the continuation-token discipline,
`fetch_results` returns the first page's column labels and the concatenation
of all pages' rows in order, with the first page's duplicated header row
excluded, so the collected row count is the total row count minus one. -/
theorem claim2_pagination (p : Page) (ps : List Page)
    (htok : ∀ q ∈ (p :: ps).dropLast, q.nextToken.isSome = true)
    (hlast : ((p :: ps).getLast (List.cons_ne_nil p ps)).nextToken = none)
    (hne : p.rows ≠ []) :
    fetch_results (p :: ps)
      = (p.columnLabels, (p.rows.drop 1 ++ (ps.map Page.rows).flatten).map collectRow)
    ∧ (fetch_results (p :: ps)).2.length
      = ((p :: ps).map (fun pg => pg.rows.length)).sum - 1 := by
  have hmain : fetch_results (p :: ps)
      = (p.columnLabels, (p.rows.drop 1 ++ (ps.map Page.rows).flatten).map collectRow) := by
    rw [fetch_results]
    cases ps with
    | nil =>
      have hp : p.nextToken = none := hlast
      rw [fetchAux_cons_none p [] [] [] true hp]
      simp
    | cons q qs =>
      have hp : p.nextToken.isSome = true := htok p (by simp [List.dropLast])
      obtain ⟨tk, htk⟩ := Option.isSome_iff_exists.1 hp
      rw [fetchAux_cons_some p (q :: qs) [] [] true tk htk]
      simp only [eq_self_iff_true, if_true]
      rw [fetchAux_rest (q :: qs) p.columnLabels ([] ++ (p.rows.drop 1).map collectRow)
        (fun x hx => htok x (by simp [List.dropLast, hx]))
        (fun h => by
          have h2 := hlast
          rwa [List.getLast_cons h] at h2)]
      simp [List.map_append]
  refine ⟨hmain, ?_⟩
  rw [hmain]
  simp only [List.length_map, List.length_append, List.length_drop,
    List.length_flatten, List.map_map, List.map_cons, List.sum_cons]
  have hpos : 0 < p.rows.length := List.length_pos.2 hne
  have : (List.map (List.length ∘ Page.rows) ps).sum
      = (List.map (fun pg => pg.rows.length) ps).sum := rfl
  omega

/-- Witness for claim C2: two pages, the first with a token, header row
dropped, three total rows collected as two. -/
theorem claim2_witness :
    fetch_results [exPage1, exPage2]
      = (["c1".data, "c2".data], [["a".data, []], ["b".data, []]])
    ∧ (fetch_results [exPage1, exPage2]).2.length
      = (([exPage1, exPage2]).map (fun pg => pg.rows.length)).sum - 1 := by
  have h := claim2_pagination exPage1 [exPage2] (by decide) (by decide) (by decide)
  exact ⟨h.1.trans (by rfl), h.2⟩

/-- Every row the pagination loop accumulates comes from some page, converted
cell by cell with `collectRow`. -/
theorem fetchAux_provenance : ∀ (ps : List Page) (cols : List Str)
    (acc : List (List Str)) (first : Bool) (row : List Str),
    row ∈ (fetchAux ps cols acc first).2 →
    row ∈ acc ∨ ∃ p ∈ ps, ∃ sr ∈ p.rows, row = collectRow sr := by
  intro ps
  induction ps with
  | nil => intro cols acc first row h; exact Or.inl h
  | cons p ps ih =>
    intro cols acc first row h
    have hstep : ∀ (hr : row ∈ acc ++ (if first then p.rows.drop 1 else p.rows).map collectRow),
        row ∈ acc ∨ ∃ q ∈ p :: ps, ∃ sr ∈ q.rows, row = collectRow sr := by
      intro hr
      rcases List.mem_append.1 hr with hl | hm
      · exact Or.inl hl
      · obtain ⟨sr, hsr, rfl⟩ := List.mem_map.1 hm
        refine Or.inr ⟨p, List.mem_cons_self p ps, sr, ?_, rfl⟩
        by_cases hf : first = true
        · rw [hf] at hsr
          simp only [if_pos rfl] at hsr
          exact List.drop_subset 1 p.rows hsr
        · rw [Bool.not_eq_true] at hf
          rw [hf] at hsr
          simpa using hsr
    cases htk : p.nextToken with
    | none =>
      rw [fetchAux_cons_none p ps cols acc first htk] at h
      exact hstep h
    | some tk =>
      rw [fetchAux_cons_some p ps cols acc first tk htk] at h
      rcases ih _ _ _ row h with hl | ⟨q, hq, sr, hsr, hrow⟩
      · exact hstep hl
      · exact Or.inr ⟨q, List.mem_cons_of_mem p hq, sr, hsr, hrow⟩

/-- Claim C9: every row collected by `fetch_results` is the `collectRow`
image of a service row, so a cell whose payload lacks a `VarCharValue` is
collected as the empty string and collection never fails on null cells. -/
theorem claim9_cells (pages : List Page) :
    ∀ row ∈ (fetch_results pages).2, ∃ p ∈ pages, ∃ sr ∈ p.rows,
      row = collectRow sr
      ∧ ∀ j, j < sr.length → sr.getD j (some []) = none → row.getD j (['?']) = [] := by
  intro row hrow
  rcases fetchAux_provenance pages [] [] true row hrow with hl | ⟨p, hp, sr, hsr, hcr⟩
  · simp at hl
  · refine ⟨p, hp, sr, hsr, hcr, ?_⟩
    intro j hj hnone
    subst hcr
    rw [collectRow, List.getD_eq_getElem?_getD, List.getElem?_map]
    rw [List.getD_eq_getElem?_getD] at hnone
    cases hget : sr[j]? with
    | none =>
      rw [List.getElem?_eq_none_iff] at hget
      omega
    | some c =>
      rw [hget] at hnone
      simp only [Option.getD_some] at hnone
      subst hnone
      simp [hget]

/-- Witness for claim C9: a collected row whose second cell came from a
payload without a value field. -/
theorem claim9_witness :
    ∃ p ∈ [exPage3], ∃ sr ∈ p.rows,
      ([[], "v".data] : List Str) = collectRow sr
      ∧ ∀ j, j < sr.length → sr.getD j (some []) = none →
        List.getD ([[], "v".data] : List Str) j (['?']) = [] :=
  claim9_cells [exPage3] [[], "v".data] (by decide)

/-! Column width computation. -/

theorem updateWidths_eq : ∀ (row : List Str) (ws : List Nat),
    row.length ≤ ws.length → updateWidths ws row = some (stepWidths ws row) := by
  intro row
  induction row with
  | nil => intro ws _; simp [updateWidths, stepWidths]
  | cons v vs ih =>
    intro ws h
    cases ws with
    | nil => simp at h
    | cons w ws2 =>
      simp only [updateWidths, ih ws2 (by simpa using h), Option.map_some']
      simp [stepWidths, List.zipWith]

theorem stepWidths_length (ws : List Nat) (row : List Str)
    (h : row.length ≤ ws.length) : (stepWidths ws row).length = ws.length := by
  simp only [stepWidths, List.length_append, List.length_zipWith, List.length_drop]
  omega

theorem stepWidths_getD : ∀ (ws : List Nat) (row : List Str) (i : Nat),
    row.length ≤ ws.length →
    (stepWidths ws row).getD i 0 = max (ws.getD i 0) ((row.getD i []).length) := by
  intro ws
  induction ws with
  | nil =>
    intro row i h
    have : row = [] := List.length_eq_zero.1 (Nat.le_zero.1 (by simpa using h))
    subst this
    simp [stepWidths]
  | cons w ws2 ih =>
    intro row i h
    cases row with
    | nil => simp [stepWidths]
    | cons v vs =>
      have hstep : stepWidths (w :: ws2) (v :: vs)
          = max w v.length :: stepWidths ws2 vs := by
        simp [stepWidths, List.zipWith]
      rw [hstep]
      cases i with
      | zero => simp
      | succ j => simpa using ih vs j (by simpa using h)

theorem foldlM_updateWidths : ∀ (rows : List (List Str)) (ws : List Nat),
    (∀ row ∈ rows, row.length ≤ ws.length) →
    List.foldlM updateWidths ws rows = some (rows.foldl stepWidths ws)
    ∧ (rows.foldl stepWidths ws).length = ws.length := by
  intro rows
  induction rows with
  | nil => intro ws _; simp [List.foldlM]
  | cons row rows ih =>
    intro ws h
    have h1 : row.length ≤ ws.length := h row (List.mem_cons_self row rows)
    have hlen := stepWidths_length ws row h1
    have h2 : ∀ r ∈ rows, r.length ≤ (stepWidths ws row).length := by
      intro r hr
      rw [hlen]
      exact h r (List.mem_cons_of_mem row hr)
    obtain ⟨ha, hb⟩ := ih (stepWidths ws row) h2
    refine ⟨?_, by simpa [List.foldl_cons] using hb.trans hlen⟩
    simp only [List.foldlM, updateWidths_eq row ws h1]
    simpa [List.foldlM] using ha

theorem foldl_stepWidths_getD : ∀ (rows : List (List Str)) (ws : List Nat) (i : Nat),
    (∀ row ∈ rows, row.length ≤ ws.length) →
    (rows.foldl stepWidths ws).getD i 0
      = rows.foldl (fun a row => max a ((row.getD i []).length)) (ws.getD i 0) := by
  intro rows
  induction rows with
  | nil => intro ws i _; rfl
  | cons row rows ih =>
    intro ws i h
    have h1 : row.length ≤ ws.length := h row (List.mem_cons_self row rows)
    have h2 : ∀ r ∈ rows, r.length ≤ (stepWidths ws row).length := by
      intro r hr
      rw [stepWidths_length ws row h1]
      exact h r (List.mem_cons_of_mem row hr)
    simp only [List.foldl_cons]
    rw [ih (stepWidths ws row) i h2, stepWidths_getD ws row i h1]

theorem foldl_max_shift : ∀ (l : List Nat) (x a : Nat),
    l.foldl max (max x a) = max a (l.foldl max x) := by
  intro l
  induction l with
  | nil => intro x a; simp [Nat.max_comm]
  | cons b l ih =>
    intro x a
    simp only [List.foldl_cons]
    rw [show max (max x a) b = max (max x b) a by
      rw [Nat.max_assoc, Nat.max_assoc, Nat.max_comm a b]]
    exact ih (max x b) a

theorem foldl_max_eq_foldr : ∀ (l : List Nat) (x : Nat),
    l.foldl max x = l.foldr max x := by
  intro l
  induction l with
  | nil => intro x; rfl
  | cons a l ih =>
    intro x
    simp only [List.foldl_cons, List.foldr_cons]
    rw [foldl_max_shift l x a, ih x]

theorem getD_map_of_lt {α β : Type} (f : α → β) :
    ∀ (l : List α) (i : Nat) (d : β) (d2 : α), i < l.length →
    (l.map f).getD i d = f (l.getD i d2) := by
  intro l
  induction l with
  | nil => intro i d d2 h; simp at h
  | cons a l ih =>
    intro i d d2 h
    cases i with
    | zero => rfl
    | succ j => simpa using ih j d d2 (by simpa using h)

/-- Characterization of the width list computed by `format_results`: each
entry is the maximum of the label length and all cell lengths in that
column, capped at 200. -/
theorem computeWidths_spec (columns : List Str) (rows : List (List Str))
    (h : ∀ row ∈ rows, row.length ≤ columns.length) :
    ∃ ws, computeWidths columns rows = some ws ∧ ws.length = columns.length ∧
      ∀ i, i < columns.length →
        ws.getD i 0 = min (List.foldr max ((columns.getD i []).length)
          (rows.map (fun row => (row.getD i []).length))) 200 := by
  have hinit : (columns.map List.length).length = columns.length := List.length_map _ _
  have h2 : ∀ row ∈ rows, row.length ≤ (columns.map List.length).length := by
    intro row hr
    rw [hinit]
    exact h row hr
  obtain ⟨ha, hb⟩ := foldlM_updateWidths rows (columns.map List.length) h2
  refine ⟨(rows.foldl stepWidths (columns.map List.length)).map (fun w => min w 200),
    ?_, ?_, ?_⟩
  · rw [computeWidths, ha, Option.map_some']
  · rw [List.length_map, hb, hinit]
  · intro i hi
    have hiW : i < (rows.foldl stepWidths (columns.map List.length)).length := by
      rw [hb, hinit]; exact hi
    rw [getD_map_of_lt (fun w => min w 200) _ i 0 0 hiW]
    rw [foldl_stepWidths_getD rows (columns.map List.length) i h2]
    rw [getD_map_of_lt List.length columns i 0 [] hi]
    rw [show rows.foldl (fun a row => max a ((row.getD i []).length))
        ((columns.getD i []).length)
      = (rows.map (fun row => (row.getD i []).length)).foldl max
        ((columns.getD i []).length) from (List.foldl_map _ _ _ _).symm]
    rw [foldl_max_eq_foldr]

theorem le_foldr_max : ∀ (l : List Nat) (x : Nat), x ≤ List.foldr max x l := by
  intro l
  induction l with
  | nil => intro x; exact Nat.le_refl x
  | cons a l ih =>
    intro x
    exact Nat.le_trans (ih x) (Nat.le_max_right a (List.foldr max x l))

theorem ljust_of_le {s : Str} {w : Nat} (h : w ≤ s.length) : ljust s w = s := by
  rw [ljust, Nat.sub_eq_zero_of_le h]
  simp

theorem length_ljust (s : Str) (w : Nat) : (ljust s w).length = max s.length w := by
  simp only [ljust, List.length_append, List.length_replicate]
  omega

theorem headerFields_getD : ∀ (columns : List Str) (ws : List Nat) (i : Nat),
    i < columns.length → i < ws.length →
    (headerFields columns ws).getD i [] = ljust (columns.getD i []) (ws.getD i 0) := by
  intro columns
  induction columns with
  | nil => intro ws i h _; simp at h
  | cons col columns ih =>
    intro ws i h1 h2
    cases ws with
    | nil => simp at h2
    | cons w ws2 =>
      cases i with
      | zero => rfl
      | succ j =>
        simpa [headerFields] using ih ws2 j (by simpa using h1) (by simpa using h2)

theorem rowFields_getD : ∀ (row : List Str) (ws : List Nat) (i : Nat),
    i < row.length → i < ws.length →
    (rowFields row ws).getD i []
      = ljust ((row.getD i []).take (ws.getD i 0)) (ws.getD i 0) := by
  intro row
  induction row with
  | nil => intro ws i h _; simp at h
  | cons v row ih =>
    intro ws i h1 h2
    cases ws with
    | nil => simp at h2
    | cons w ws2 =>
      cases i with
      | zero => rfl
      | succ j =>
        simpa [rowFields] using ih ws2 j (by simpa using h1) (by simpa using h2)

/-- Claim C8: the width of each column is the maximum of its label length
and all its cell lengths, capped at 200; the dash separator always has the
header's rendered length; and on the spec's example the header renders as
`a   | bb` with widths 3 and 2. -/
theorem claim8_widths :
    (∀ (columns : List Str) (rows : List (List Str)),
      (∀ row ∈ rows, List.length row = columns.length) →
      ∃ ws, computeWidths columns rows = some ws ∧ ws.length = columns.length ∧
        ∀ i, i < columns.length →
          ws.getD i 0 = min (List.foldr max ((columns.getD i []).length)
            (rows.map (fun row => (row.getD i []).length))) 200)
    ∧ (∀ (columns : List Str) (rows : List (List Str)),
      (∀ row ∈ rows, List.length row ≤ columns.length) →
      ∃ hd sep rest, format_table columns rows = some (hd :: sep :: rest)
        ∧ sep.length = hd.length)
    ∧ computeWidths ["a".data, "bb".data]
        [["1".data, "22".data], ["333".data, "4".data]] = some [3, 2]
    ∧ format_table ["a".data, "bb".data]
        [["1".data, "22".data], ["333".data, "4".data]]
      = some ["a   | bb".data, List.replicate 8 '-',
          "1   | 22".data, "333 | 4 ".data] := by
  refine ⟨?_, ?_, by decide, by decide⟩
  · intro columns rows h
    exact computeWidths_spec columns rows (fun row hr => Nat.le_of_eq (h row hr))
  · intro columns rows h
    obtain ⟨ws, hws, _, _⟩ := computeWidths_spec columns rows h
    refine ⟨joinSep (" | ".data) (headerFields columns ws),
      List.replicate (joinSep (" | ".data) (headerFields columns ws)).length '-',
      rows.map (fun row => joinSep (" | ".data) (rowFields row ws)),
      ?_, List.length_replicate _ _⟩
    rw [format_table, hws, Option.map_some']

/-- Witness for claim C8: the general width characterization instantiated at
the spec's example table. -/
theorem claim8_witness :
    ∃ ws, computeWidths ["a".data, "bb".data]
        [["1".data, "22".data], ["333".data, "4".data]] = some ws
      ∧ ws.length = (["a".data, "bb".data] : List Str).length
      ∧ ∀ i, i < (["a".data, "bb".data] : List Str).length →
          ws.getD i 0 = min (List.foldr max
            (((["a".data, "bb".data] : List Str).getD i []).length)
            (([["1".data, "22".data], ["333".data, "4".data]] : List (List Str)).map
              (fun row => (row.getD i []).length))) 200 :=
  claim8_widths.1 ["a".data, "bb".data]
    [["1".data, "22".data], ["333".data, "4".data]] (by decide)

/-- Claim C10: the 200-character cap truncates only data cells; a header
label longer than 200 characters is rendered in full by `ljust`, so its
header field is longer than the column's capped width, while every data
field in that column has exactly the capped width. -/
theorem claim10_header (columns : List Str) (rows : List (List Str)) (i : Nat)
    (hi : i < columns.length)
    (hlabel : 200 < (columns.getD i []).length)
    (hrows : ∀ row ∈ rows, List.length row ≤ columns.length) :
    ∃ ws, computeWidths columns rows = some ws
      ∧ ws.getD i 0 = 200
      ∧ (headerFields columns ws).getD i [] = columns.getD i []
      ∧ ws.getD i 0 < ((headerFields columns ws).getD i []).length
      ∧ ∀ row, i < row.length →
          ((rowFields row ws).getD i []).length = ws.getD i 0 := by
  obtain ⟨ws, hws, hlen, hforms⟩ := computeWidths_spec columns rows hrows
  have hcap : ws.getD i 0 = 200 := by
    rw [hforms i hi]
    have h200 : 200 ≤ List.foldr max ((columns.getD i []).length)
        (rows.map (fun row => (row.getD i []).length)) :=
      Nat.le_trans (Nat.le_of_lt hlabel) (le_foldr_max _ _)
    omega
  have hiw : i < ws.length := by rw [hlen]; exact hi
  have hfield : (headerFields columns ws).getD i [] = columns.getD i [] := by
    rw [headerFields_getD columns ws i hi hiw, hcap]
    exact ljust_of_le (Nat.le_of_lt hlabel)
  refine ⟨ws, hws, hcap, hfield, ?_, ?_⟩
  · rw [hfield, hcap]
    exact hlabel
  · intro row hir
    rw [rowFields_getD row ws i hir hiw, length_ljust, List.length_take]
    omega

/-- Witness for claim C10: a single column whose label has 201 characters. -/
theorem claim10_witness :
    ∃ ws, computeWidths [longLabel] [[['y']]] = some ws
      ∧ ws.getD 0 0 = 200
      ∧ (headerFields [longLabel] ws).getD 0 [] = ([longLabel] : List Str).getD 0 []
      ∧ ws.getD 0 0 < ((headerFields [longLabel] ws).getD 0 []).length
      ∧ ∀ row, 0 < List.length row →
          ((rowFields row ws).getD 0 []).length = ws.getD 0 0 := by
  have h := claim10_header [longLabel] [[['y']]] 0 (by decide)
    (by rw [show (([longLabel] : List Str).getD 0 []) = longLabel from rfl,
          longLabel, List.length_replicate]; omega) (by decide)
  exact h

/-! Template scanning. -/

theorem dropWhile_len_le (p : Char → Bool) (l : Str) :
    (l.dropWhile p).length ≤ l.length :=
  (List.dropWhile_sublist p).length_le

/-- The token stream partitions the template: concatenating each token's
source text recovers the template exactly. -/
theorem tokenizeF_source (f : Nat) : ∀ (s : Str), s.length ≤ f →
    ((tokenizeF f s).map Tok.source).flatten = s := by
  induction f with
  | zero =>
    intro s hf
    cases s with
    | nil => simp [tokenizeF]
    | cons c cs => simp at hf
  | succ f2 ih =>
    intro s hf
    cases s with
    | nil => simp [tokenizeF]
    | cons c cs =>
      have hcs : cs.length ≤ f2 := by
        simp only [List.length_cons] at hf
        omega
      simp only [tokenizeF]
      by_cases hc : c = '$'
      · subst hc
        simp only [eq_self_iff_true, if_true]
        cases cs with
        | nil => rfl
        | cons d ds =>
          have hds : ds.length ≤ f2 := by
            simp only [List.length_cons] at hcs
            omega
          by_cases hd : d = '$'
          · subst hd
            simp only [eq_self_iff_true, if_true, List.map_cons, List.flatten_cons,
              Tok.source]
            rw [ih ds hds]
            rfl
          · simp only [hd, if_false]
            by_cases hbr : d = '{'
            · subst hbr
              simp only [eq_self_iff_true, if_true]
              cases ds with
              | nil =>
                simp only [List.map_cons, List.flatten_cons, Tok.source]
                rw [ih (['{'] : Str) (by simpa using hcs)]
                rfl
              | cons e es =>
                by_cases hid : isIdStart e = true
                · simp only [hid, if_true]
                  by_cases hcl : (es.dropWhile isIdChar).head? = some '}'
                  · simp only [hcl, if_true, eq_self_iff_true, List.map_cons,
                      List.flatten_cons, Tok.source]
                    have hdw : es.dropWhile isIdChar
                        = '}' :: (es.dropWhile isIdChar).drop 1 := by
                      cases hx : es.dropWhile isIdChar with
                      | nil => rw [hx] at hcl; simp at hcl
                      | cons x r =>
                        rw [hx] at hcl
                        simp only [List.head?_cons, Option.some.injEq] at hcl
                        subst hcl
                        simp
                    have hrest : ((es.dropWhile isIdChar).drop 1).length ≤ f2 := by
                      have h1 := dropWhile_len_le isIdChar es
                      simp only [List.length_cons] at hcs
                      simp only [List.length_drop]
                      omega
                    rw [ih _ hrest]
                    have hsplit : es.takeWhile isIdChar ++ es.dropWhile isIdChar = es :=
                      List.takeWhile_append_dropWhile isIdChar es
                    conv_rhs => rw [← hsplit, hdw]
                    simp
                  · simp only [hcl, if_false, List.map_cons, List.flatten_cons,
                      Tok.source]
                    rw [ih _ hcs]
                    rfl
                · simp only [hid, Bool.false_eq_true, if_false, List.map_cons,
                    List.flatten_cons, Tok.source]
                  rw [ih _ hcs]
                  rfl
            · simp only [hbr, if_false]
              by_cases hid : isIdStart d = true
              · simp only [hid, if_true, List.map_cons, List.flatten_cons, Tok.source]
                have hrest : (ds.dropWhile isIdChar).length ≤ f2 := by
                  have h1 := dropWhile_len_le isIdChar ds
                  omega
                rw [ih _ hrest]
                have hsplit : ds.takeWhile isIdChar ++ ds.dropWhile isIdChar = ds :=
                  List.takeWhile_append_dropWhile isIdChar ds
                conv_rhs => rw [← hsplit]
                simp
              · simp only [hid, Bool.false_eq_true, if_false, List.map_cons,
                  List.flatten_cons, Tok.source]
                rw [ih _ hcs]
                rfl
      · simp only [hc, if_false, List.map_cons, List.flatten_cons, Tok.source]
        rw [ih cs hcs]
        rfl

/-- Claim C4: `substitute_params` is total by construction; its output is
the left-to-right token stream rendered token by token, the token stream
partitions the template exactly, a placeholder whose name has no key in the
mapping renders as its original text (the query is never corrupted or
truncated), and a placeholder whose name has a key renders as that key's
value, once per occurrence. -/
theorem claim4_substitution (q : Str) (params : List (Str × Str)) :
    substitute_params q params = ((tokenize q).map (Tok.render params)).flatten
    ∧ ((tokenize q).map Tok.source).flatten = q
    ∧ (∀ t ∈ tokenize q, ∀ n, Tok.placeholderName t = some n →
        (lookupParam params n = none → Tok.render params t = Tok.source t)
        ∧ (∀ v, lookupParam params n = some v → Tok.render params t = v))
    ∧ (∀ t ∈ tokenize q, Tok.placeholderName t = none →
        Tok.render params t = Tok.source t ∨ Tok.render params t = ['$']) := by
  refine ⟨rfl, tokenizeF_source q.length q (Nat.le_refl _), ?_, ?_⟩
  · intro t _ n hn
    cases t with
    | lit ch => simp [Tok.placeholderName] at hn
    | escaped => simp [Tok.placeholderName] at hn
    | invalid => simp [Tok.placeholderName] at hn
    | named m =>
      simp only [Tok.placeholderName, Option.some.injEq] at hn
      subst hn
      constructor
      · intro hnone
        simp [Tok.render, Tok.source, hnone]
      · intro v hv
        simp [Tok.render, hv]
    | braced m =>
      simp only [Tok.placeholderName, Option.some.injEq] at hn
      subst hn
      constructor
      · intro hnone
        simp [Tok.render, Tok.source, hnone]
      · intro v hv
        simp [Tok.render, hv]
  · intro t _ hn
    cases t with
    | lit ch => exact Or.inl rfl
    | escaped => exact Or.inr rfl
    | invalid => exact Or.inl rfl
    | named m => simp [Tok.placeholderName] at hn
    | braced m => simp [Tok.placeholderName] at hn

/-- Witness for claim C4: on a concrete template, the matched placeholder is
replaced by its value, the unmatched one is left verbatim, and the token
stream reconstructs the template. -/
theorem claim4_witness :
    Tok.render [("x".data, "V".data)] (Tok.braced ("y".data))
      = Tok.source (Tok.braced ("y".data))
    ∧ Tok.render [("x".data, "V".data)] (Tok.named ("x".data)) = "V".data
    ∧ ((tokenize ("a $x ${y} $$ end".data)).map Tok.source).flatten
      = "a $x ${y} $$ end".data
    ∧ substitute_params ("a $x ${y} $$ end".data) [("x".data, "V".data)]
      = "a V ${y} $ end".data := by
  have h := claim4_substitution ("a $x ${y} $$ end".data) [("x".data, "V".data)]
  refine ⟨(h.2.2.1 (Tok.braced ("y".data)) (by decide) ("y".data) (by decide)).1
      (by decide),
    (h.2.2.1 (Tok.named ("x".data)) (by decide) ("x".data) (by decide)).2
      ("V".data) (by decide),
    h.2.1, by decide⟩

/-! Report formatting. -/

/-- The claim as stated is false on the code: `format_results` reads the
wall clock (`datetime.now()` at src/query.py line 172), so two calls with
identical table, query and execution metadata produce different output when
the clock has advanced. -/
theorem claim3_counterexample :
    format_results [] [] ("SELECT 1".data) exSucc
        ("2026-01-01T00:00:00".data) ("telemetry".data)
    ≠ format_results [] [] ("SELECT 1".data) exSucc
        ("2026-01-02T00:00:00".data) ("telemetry".data) := by decide

/-- Amended claim C3: `format_results` is a deterministic function of the
result table, the query text, the execution metadata, the formatting-time
clock reading and the `DATABASE` module global; the clock and the global
influence only the timestamp line (index 2) and the database line (index 3)
of the report, so overwriting those two lines makes the outputs of any two
calls with the same table, query and metadata identical. -/
theorem claim3_amended (columns : List Str) (rows : List (List Str)) (query : Str)
    (info : QueryExecution) (t1 t2 db1 db2 x : Str) :
    (formatResultsLines columns rows query info t1 db1).map
      (fun ls => (ls.set 2 x).set 3 x)
    = (formatResultsLines columns rows query info t2 db2).map
      (fun ls => (ls.set 2 x).set 3 x) := by
  cases hr : rows.isEmpty with
  | false =>
    simp only [formatResultsLines, hr, Bool.false_eq_true, if_false]
    cases hft : format_table columns rows with
    | none => rfl
    | some tbl =>
      simp only [Option.map_some']
      rfl
  | true =>
    simp only [formatResultsLines, hr, if_true, Option.map_some']
    rfl
